import Mathlib

/-!
Shallow embedding of `update.py` from the chinese-reader repository.

Text is modelled as `List Char`: Python strings are sequences of Unicode
code points, so `List Char` is a faithful representation and every string
operation of the script is translated code-point-wise.
-/

/-- Characters of the Han range of `RUBY_RE`, the class `[一-鿿]`
(update.py line 13). -/
def isHan (c : Char) : Bool := 0x4e00 ≤ c.toNat && c.toNat ≤ 0x9fff

/-- Python whitespace, the character class used by `str.strip()` and
`str.split()` with no arguments (Python's `str.isspace` set). -/
def isPySpace (c : Char) : Bool :=
  (9 ≤ c.toNat && c.toNat ≤ 13) || c.toNat == 32 || (28 ≤ c.toNat && c.toNat ≤ 31) ||
  c.toNat == 0x85 || c.toNat == 0xa0 || c.toNat == 0x1680 ||
  (0x2000 ≤ c.toNat && c.toNat ≤ 0x200a) || c.toNat == 0x2028 || c.toNat == 0x2029 ||
  c.toNat == 0x202f || c.toNat == 0x205f || c.toNat == 0x3000

/-- Python `str.strip()`: remove leading and trailing whitespace. -/
def pyStrip (l : List Char) : List Char :=
  ((l.dropWhile isPySpace).reverse.dropWhile isPySpace).reverse

/-- The character class `[^)]` of `RUBY_RE`. -/
def nonParen (c : Char) : Bool := c != ')'

/-- Line-break characters recognised by Python `str.splitlines()`. -/
def isLineBreak (c : Char) : Bool :=
  c.toNat == 10 || c.toNat == 11 || c.toNat == 12 || c.toNat == 13 ||
  c.toNat == 28 || c.toNat == 29 || c.toNat == 30 || c.toNat == 0x85 ||
  c.toNat == 0x2028 || c.toNat == 0x2029

/-- Python `str.splitlines()`: no trailing empty line, `\r\n` counts as a
single break. -/
def splitlines : List Char → List (List Char)
  | [] => []
  | '\r' :: '\n' :: rest => [] :: splitlines rest
  | c :: rest =>
    if isLineBreak c then [] :: splitlines rest
    else
      match splitlines rest with
      | [] => [[c]]
      | l :: ls => (c :: l) :: ls

/-- Python `str.split("\n\n")`: leftmost, non-overlapping occurrences of the
two-character separator (update.py line 45). -/
def splitBlocks : List Char → List (List Char)
  | [] => [[]]
  | '\n' :: '\n' :: rest => [] :: splitBlocks rest
  | c :: rest =>
    match splitBlocks rest with
    | [] => [[c]]
    | b :: bs => (c :: b) :: bs

/-- One attempt of `RUBY_RE = ([一-鿿]+)\(([^)]+)\)` at the head of
the input: a non-empty maximal run of Han characters, a `(`, a non-empty
maximal run of non-`)` characters, and a `)`.  Returns the two capture
groups and the remaining input.  (Backtracking never helps this pattern: a
shorter Han run is still followed by a Han character rather than `(`, and a
shorter `[^)]+` run is still followed by a non-`)` character, so maximal
runs are exactly Python's behaviour.) -/
def matchRuby (s : List Char) : Option (List Char × List Char × List Char) :=
  match s.dropWhile isHan with
  | [] => none
  | a :: t1 =>
    if a = '(' then
      match t1.dropWhile nonParen with
      | [] => none
      | b :: r =>
        if b = ')' then
          if (s.takeWhile isHan).isEmpty || (t1.takeWhile nonParen).isEmpty then none
          else some (s.takeWhile isHan, t1.takeWhile nonParen, r)
        else none
    else none

/-- `RUBY_RE.sub` with an explicit replacement function, fuelled so that the
definition is structurally recursive and computable by the kernel.  Python's
`re.sub` scans left to right: on a match, the replacement is emitted and
scanning resumes after the match; otherwise one character is emitted and
scanning advances by one. -/
def rubySubF (f : List Char → List Char → List Char) : Nat → List Char → List Char
  | _, [] => []
  | 0, l => l
  | n + 1, c :: cs =>
    match matchRuby (c :: cs) with
    | some (han, py, rest) => f han py ++ rubySubF f n rest
    | none => c :: rubySubF f n cs

/-- `RUBY_RE.sub(f, l)`: the fuel `l.length` always suffices. -/
def rubySub (f : List Char → List Char → List Char) (l : List Char) : List Char :=
  rubySubF f l.length l

/-- The replacement of `repl` in `to_ruby_html` (update.py lines 39-42). -/
def rubyRepl (han py : List Char) : List Char :=
  "<ruby>".data ++ han ++ "<rt>".data ++ py ++ "</rt></ruby>".data

/-- The replacement `r'\1'` used by `extract_title` (update.py line 27). -/
def keepBase (han _py : List Char) : List Char := han

/-- `"".join(x.split())` (update.py line 29): splitting on whitespace runs
and joining on the empty string removes exactly the whitespace characters. -/
def removeWs (l : List Char) : List Char := l.filter (fun c => !isPySpace c)

/-- `extract_title` (update.py lines 16-30). -/
def extract_title (text fallback : List Char) : List Char :=
  match ((splitlines text).map pyStrip).filter (fun l => !l.isEmpty) with
  | [] => fallback
  | first :: _ =>
    let title := removeWs (rubySub keepBase first)
    if title.isEmpty then fallback else title

/-- Title extraction as the specification words it: take the first raw line
containing non-whitespace content, replace every `base(pron)` by `base`,
remove all whitespace characters, and fall back when the result is empty or
no such line exists. -/
def extract_title_spec (text fallback : List Char) : List Char :=
  match (splitlines text).filter (fun l => l.any fun c => !isPySpace c) with
  | [] => fallback
  | first :: _ =>
    let title := removeWs (rubySub keepBase first)
    if title.isEmpty then fallback else title

/-- The `<p>`-wrapped paragraphs built by `to_ruby_html` (update.py lines
44-50): strip the text, split on `"\n\n"`, strip each block, drop empty
blocks, substitute `RUBY_RE`, wrap in `<p>…</p>`. -/
def paragraphsOf (text : List Char) : List (List Char) :=
  (((splitBlocks (pyStrip text)).map pyStrip).filter (fun b => !b.isEmpty)).map
    (fun b => "<p>".data ++ rubySub rubyRepl b ++ "</p>".data)

/-- `to_ruby_html` (update.py lines 33-51): the paragraphs joined with
`"\n\n"`. -/
def to_ruby_html (text : List Char) : List Char :=
  List.intercalate "\n\n".data (paragraphsOf text)

/-- Scan of a rendered block that removes the generated annotation markup:
`<ruby>` and `</ruby>` tags are dropped, and an `<rt>` tag is dropped
together with everything up to and including the next `</rt>`. -/
def dropRt : List Char → List Char
  | [] => []
  | c :: cs => if (c :: cs).take 5 = "</rt>".data then (c :: cs).drop 5 else dropRt cs

/-- Fuelled worker for `stripRuby`. -/
def stripRubyF : Nat → List Char → List Char
  | _, [] => []
  | 0, l => l
  | n + 1, c :: cs =>
    if (c :: cs).take 6 = "<ruby>".data then stripRubyF n ((c :: cs).drop 6)
    else if (c :: cs).take 7 = "</ruby>".data then stripRubyF n ((c :: cs).drop 7)
    else if (c :: cs).take 4 = "<rt>".data then stripRubyF n (dropRt ((c :: cs).drop 4))
    else c :: stripRubyF n cs

/-- Removes all generated `<ruby>…<rt>…</rt></ruby>` markup from a rendered
block. -/
def stripRuby (l : List Char) : List Char := stripRubyF l.length l

/-- The default stylesheet contents written by `ensure_css` (update.py lines
124-159). -/
def DEFAULT_CSS : List Char :=
  "body \x7b
  max-width: 800px;
  margin: 2rem auto;
  padding: 1rem;
  font-family: system-ui, -apple-system, BlinkMacSystemFont, \"Segoe UI\", sans-serif;
  font-size: 1.4rem;
  line-height: 1.8;
\x7d

a \x7b
  color: inherit;
\x7d

a.back \x7b
  display: inline-block;
  margin-bottom: 1rem;
  text-decoration: none;
\x7d

ul.story-list \x7b
  padding-left: 1.2rem;
\x7d

ul.story-list li \x7b
  margin: 0.4rem 0;
\x7d

ruby \x7b
  ruby-position: over;
\x7d

rt \x7b
  font-size: 0.6em;
  color: #555;
\x7d
".data

/-- `ensure_css` (update.py lines 115-160), as a transition on the abstract
state of the stylesheet file: `none` when `style.css` is absent, `some c`
when it exists with contents `c`.  The function returns the state after the
call: an existing file is returned untouched, a missing file is created with
`DEFAULT_CSS`. -/
def ensure_css : Option (List Char) → Option (List Char)
  | some c => some c
  | none => some DEFAULT_CSS

/-- Lexicographic comparison of code-point sequences: the order used by
`sorted(BASE_DIR.glob("*.txt"))` on the file names (update.py line 166). -/
def lexLe : List Char → List Char → Bool
  | [], _ => true
  | _ :: _, [] => false
  | a :: as, b :: bs =>
    if a.toNat < b.toNat then true
    else if b.toNat < a.toNat then false
    else lexLe as bs

/-- Insertion into a sorted list, for the model of Python `sorted`. -/
def insertSorted (le : α → α → Bool) (x : α) : List α → List α
  | [] => [x]
  | y :: ys => if le x y then x :: y :: ys else y :: insertSorted le x ys

/-- Insertion sort: models the contract of Python's `sorted` (a sorted
permutation of the input). -/
def isort (le : α → α → Bool) : List α → List α
  | [] => []
  | x :: xs => insertSorted le x (isort le xs)

/-- A source file, modelled as (file name, file contents). -/
def fileLeB (a b : List Char × List Char) : Bool := lexLe a.1 b.1

/-- `sorted(BASE_DIR.glob("*.txt"))` (update.py line 166): the source files
in lexicographic order of their names. -/
def sortFiles (files : List (List Char × List Char)) : List (List Char × List Char) :=
  isort fileLeB files

/-- `txt_path.stem` for a name of the form `stem + ".txt"`. -/
def stemOf (name : List Char) : List Char := name.take (name.length - 4)

/-- `txt_path.with_suffix(".html").name` for a name of the form
`stem + ".txt"`. -/
def htmlNameOf (name : List Char) : List Char := name.take (name.length - 4) ++ ".html".data

/-- The page record produced by `write_story_html` (update.py lines 54-83):
the output file name and the display title. -/
def pageOf (f : List Char × List Char) : List Char × List Char :=
  (htmlNameOf f.1, extract_title f.2 (stemOf f.1))

/-- The page-record list accumulated by `main` (update.py lines 163-173):
one record per source file, in sorted order of the source names. -/
def mainPages (files : List (List Char × List Char)) : List (List Char × List Char) :=
  (sortFiles files).map pageOf

/-- One `<li>` item of the index page (update.py lines 90-93). -/
def itemHtml (pg : List Char × List Char) : List Char :=
  "    <li><a href=\"".data ++ pg.1 ++ "\">".data ++ pg.2 ++ "</a></li>".data

/-- The list items of `write_index` (update.py lines 90-93), one per page
record, in the order of the page-record list. -/
def indexItems (pages : List (List Char × List Char)) : List (List Char) :=
  pages.map itemHtml

/-! ### Character-class facts -/

theorem isPySpace_not_han {c : Char} (h : isPySpace c = true) : isHan c = false := by
  simp only [isPySpace, Bool.or_eq_true, Bool.and_eq_true, decide_eq_true_eq,
    beq_iff_eq] at h
  simp only [isHan, Bool.and_eq_true, decide_eq_true_eq, Bool.and_eq_false_iff,
    decide_eq_false_iff_not]
  omega

theorem isPySpace_ne_lparen {c : Char} (h : isPySpace c = true) : c ≠ '(' := by
  intro he; rw [he] at h; exact absurd h (by decide)

theorem isPySpace_ne_rparen {c : Char} (h : isPySpace c = true) : c ≠ ')' := by
  intro he; rw [he] at h; exact absurd h (by decide)

theorem isPySpace_nonParen {c : Char} (h : isPySpace c = true) : nonParen c = true := by
  simp [nonParen, isPySpace_ne_rparen h]

theorem isHan_ne_lt {c : Char} (h : isHan c = true) : c ≠ '<' := by
  intro he; rw [he] at h; exact absurd h (by decide)

/-! ### takeWhile / dropWhile helpers -/

theorem tw_append_all {p : Char → Bool} :
    ∀ (l₁ : List Char) (b : Char) (t : List Char), (∀ c ∈ l₁, p c = true) → p b = false →
      (l₁ ++ b :: t).takeWhile p = l₁ ∧ (l₁ ++ b :: t).dropWhile p = b :: t := by
  intro l₁
  induction l₁ with
  | nil => intro b t _ hb; simp [List.takeWhile_cons, List.dropWhile_cons, hb]
  | cons a l ih =>
    intro b t hall hb
    have ha : p a = true := hall a (by simp)
    have := ih b t (fun c hc => hall c (by simp [hc])) hb
    simp [List.takeWhile_cons, List.dropWhile_cons, ha, this.1, this.2]

theorem dw_append_of_ne_nil {p : Char → Bool} :
    ∀ (l₁ l₂ : List Char), l₁.dropWhile p ≠ [] →
      (l₁ ++ l₂).takeWhile p = l₁.takeWhile p ∧
      (l₁ ++ l₂).dropWhile p = l₁.dropWhile p ++ l₂ := by
  intro l₁
  induction l₁ with
  | nil => intro l₂ h; simp at h
  | cons a l ih =>
    intro l₂ h
    by_cases ha : p a = true
    · have h' : l.dropWhile p ≠ [] := by
        simpa [List.dropWhile_cons, ha] using h
      have := ih l₂ h'
      simp [List.takeWhile_cons, List.dropWhile_cons, ha, this.1, this.2]
    · simp [List.takeWhile_cons, List.dropWhile_cons, ha]

theorem dw_append_of_all {p : Char → Bool} :
    ∀ (l₁ l₂ : List Char), (∀ c ∈ l₁, p c = true) →
      (l₁ ++ l₂).dropWhile p = l₂.dropWhile p := by
  intro l₁
  induction l₁ with
  | nil => intro l₂ _; rfl
  | cons a l ih =>
    intro l₂ hall
    have ha : p a = true := hall a (by simp)
    simp [List.dropWhile_cons, ha, ih l₂ (fun c hc => hall c (by simp [hc]))]

/-! ### matchRuby shape lemmas -/

theorem mR_dw_nil {s : List Char} (h : s.dropWhile isHan = []) : matchRuby s = none := by
  unfold matchRuby; rw [h]

theorem mR_dw_ne {s : List Char} {a : Char} {t : List Char}
    (h : s.dropWhile isHan = a :: t) (ha : a ≠ '(') : matchRuby s = none := by
  unfold matchRuby; rw [h]; simp [ha]

theorem mR_inner_nil {s t1 : List Char} (h : s.dropWhile isHan = '(' :: t1)
    (h2 : t1.dropWhile nonParen = []) : matchRuby s = none := by
  unfold matchRuby; rw [h]; simp only [if_pos rfl]; rw [h2]; simp

theorem mR_inner_ne {s t1 : List Char} {b : Char} {r : List Char}
    (h : s.dropWhile isHan = '(' :: t1) (h2 : t1.dropWhile nonParen = b :: r)
    (hb : b ≠ ')') : matchRuby s = none := by
  unfold matchRuby; rw [h]; simp only [if_pos rfl]; rw [h2]; simp [hb]

theorem mR_inner_rp {s t1 r : List Char} (h : s.dropWhile isHan = '(' :: t1)
    (h2 : t1.dropWhile nonParen = ')' :: r) :
    matchRuby s =
      if (s.takeWhile isHan).isEmpty || (t1.takeWhile nonParen).isEmpty then none
      else some (s.takeWhile isHan, t1.takeWhile nonParen, r) := by
  unfold matchRuby; rw [h]; simp only [if_pos rfl]; rw [h2]; simp

theorem matchRuby_none_of_not_han {c : Char} {cs : List Char} (hc : isHan c = false) :
    matchRuby (c :: cs) = none := by
  have hd : (c :: cs).dropWhile isHan = c :: cs := by simp [List.dropWhile_cons, hc]
  by_cases hcp : c = '('
  · subst hcp
    cases h2 : cs.dropWhile nonParen with
    | nil => exact mR_inner_nil hd h2
    | cons b r =>
      by_cases hb : b = ')'
      · subst hb
        rw [mR_inner_rp hd h2]
        have : ('(' :: cs).takeWhile isHan = [] := by
          simp [List.takeWhile_cons, hc]
        simp [this]
      · exact mR_inner_ne hd h2 hb
  · exact mR_dw_ne hd hcp

theorem matchRuby_some_decomp {s han py r : List Char}
    (hm : matchRuby s = some (han, py, r)) :
    s = han ++ '(' :: (py ++ ')' :: r) ∧ han ≠ [] ∧ py ≠ [] ∧
      (∀ c ∈ han, isHan c = true) ∧ (∀ c ∈ py, nonParen c = true) := by
  unfold matchRuby at hm
  split at hm
  · exact absurd hm (by simp)
  · rename_i a t1 heq
    split at hm
    · rename_i ha
      subst ha
      split at hm
      · exact absurd hm (by simp)
      · rename_i b r' heq2
        split at hm
        · rename_i hb
          subst hb
          split at hm
          · exact absurd hm (by simp)
          · rename_i hcond
            rw [Bool.or_eq_true] at hcond
            push_neg at hcond
            injection hm with hm1
            injection hm1 with e1 hm2
            injection hm2 with e2 e3
            subst e1; subst e2; subst e3
            refine ⟨?_, ?_, ?_, ?_, ?_⟩
            · conv_lhs => rw [← List.takeWhile_append_dropWhile isHan s]
              rw [heq]
              congr 2
              conv_lhs => rw [← List.takeWhile_append_dropWhile nonParen t1]
              rw [heq2]
            · exact List.isEmpty_eq_false.mp (Bool.not_eq_true _ ▸ hcond.1)
            · exact List.isEmpty_eq_false.mp (Bool.not_eq_true _ ▸ hcond.2)
            · exact fun c hc => List.mem_takeWhile_imp hc
            · exact fun c hc => List.mem_takeWhile_imp hc
        · exact absurd hm (by simp)
    · exact absurd hm (by simp)

theorem matchRuby_some_length {s han py r : List Char}
    (hm : matchRuby s = some (han, py, r)) : r.length + 4 ≤ s.length := by
  obtain ⟨hs, hh, hp, -, -⟩ := matchRuby_some_decomp hm
  have hhl : 1 ≤ han.length := by
    cases han with
    | nil => exact absurd rfl hh
    | cons _ _ => simp
  have hpl : 1 ≤ py.length := by
    cases py with
    | nil => exact absurd rfl hp
    | cons _ _ => simp
  rw [hs]
  simp only [List.length_append, List.length_cons]
  omega

/-! ### rubySub unfolding lemmas -/

theorem rubySubF_fuel (f : List Char → List Char → List Char) :
    ∀ n m (l : List Char), l.length ≤ n → l.length ≤ m → rubySubF f n l = rubySubF f m l := by
  intro n
  induction n with
  | zero =>
    intro m l hn _
    have : l = [] := List.length_eq_zero.mp (Nat.le_zero.mp hn)
    subst this
    cases m <;> rfl
  | succ n ih =>
    intro m l hn hm
    cases l with
    | nil => cases m <;> rfl
    | cons c cs =>
      cases m with
      | zero => simp at hm
      | succ m' =>
        cases hmr : matchRuby (c :: cs) with
        | some x =>
          obtain ⟨han, py, r⟩ := x
          have hr := matchRuby_some_length hmr
          simp only [List.length_cons] at hn hm hr
          simp only [rubySubF, hmr]
          rw [ih m' r (by omega) (by omega)]
        | none =>
          simp only [List.length_cons] at hn hm
          simp only [rubySubF, hmr]
          rw [ih m' cs (by omega) (by omega)]

theorem rubySub_cons_some {f : List Char → List Char → List Char} {c : Char}
    {cs han py r : List Char} (hm : matchRuby (c :: cs) = some (han, py, r)) :
    rubySub f (c :: cs) = f han py ++ rubySub f r := by
  have hr := matchRuby_some_length hm
  simp only [List.length_cons] at hr
  show rubySubF f (c :: cs).length (c :: cs) = _
  simp only [List.length_cons, rubySubF, hm]
  rw [rubySubF_fuel f cs.length r.length r (by omega) le_rfl]
  rfl

theorem rubySub_cons_none {f : List Char → List Char → List Char} {c : Char}
    {cs : List Char} (hm : matchRuby (c :: cs) = none) :
    rubySub f (c :: cs) = c :: rubySub f cs := by
  show rubySubF f (c :: cs).length (c :: cs) = _
  simp only [List.length_cons, rubySubF, hm]
  rfl

/-- Strong induction on the length of a character list. -/
theorem listStrongInd {P : List Char → Prop}
    (ind : ∀ l, (∀ m : List Char, m.length < l.length → P m) → P l) : ∀ l, P l
  | l => ind l (fun m _hm => listStrongInd ind m)
  termination_by l => l.length
  decreasing_by exact _hm

/-! ### Behaviour of rubySub on unmatched text -/

/-- Text without a Han character is passed through unchanged. -/
theorem rubySub_no_han (f : List Char → List Char → List Char) :
    ∀ l : List Char, (∀ c ∈ l, isHan c = false) → rubySub f l = l := by
  refine listStrongInd (fun l ih h => ?_)
  cases l with
  | nil => rfl
  | cons c cs =>
    rw [rubySub_cons_none (matchRuby_none_of_not_han (h c (by simp)))]
    rw [ih cs (by simp) (fun c hc => h c (by simp [hc]))]

/-- A Han-free prefix is passed through unchanged. -/
theorem rubySub_prefix_no_han (f : List Char → List Char → List Char) :
    ∀ (pre t : List Char), (∀ c ∈ pre, isHan c = false) →
      rubySub f (pre ++ t) = pre ++ rubySub f t := by
  intro pre
  induction pre with
  | nil => intro t _; rfl
  | cons a p ih =>
    intro t h
    rw [List.cons_append, rubySub_cons_none (matchRuby_none_of_not_han (h a (by simp)))]
    rw [ih t (fun c hc => h c (by simp [hc]))]
    rfl

/-- Appending a suffix that contains no Han character, no `(` and no `)`
cannot create, destroy or change a match: it is carried along unchanged. -/
theorem matchRuby_append {ws : List Char}
    (hws : ∀ c ∈ ws, isHan c = false ∧ c ≠ '(' ∧ c ≠ ')') :
    ∀ s : List Char,
      matchRuby (s ++ ws) = (matchRuby s).map fun x => (x.1, x.2.1, x.2.2 ++ ws) := by
  intro s
  cases hd : s.dropWhile isHan with
  | nil =>
    rw [mR_dw_nil hd]
    have hall : ∀ c ∈ s, isHan c = true := List.dropWhile_eq_nil_iff.mp hd
    have hdw : (s ++ ws).dropWhile isHan = ws.dropWhile isHan := dw_append_of_all s ws hall
    cases ws with
    | nil => rw [List.append_nil, mR_dw_nil hd]; rfl
    | cons w ws' =>
      have hw := hws w (by simp)
      have : (w :: ws').dropWhile isHan = w :: ws' := by
        simp [List.dropWhile_cons, hw.1]
      rw [mR_dw_ne (this ▸ hdw) hw.2.1]
      rfl
  | cons a t =>
    have hne : s.dropWhile isHan ≠ [] := by rw [hd]; simp
    have hdw : (s ++ ws).dropWhile isHan = a :: (t ++ ws) := by
      rw [(dw_append_of_ne_nil s ws hne).2, hd]; rfl
    by_cases ha : a = '('
    · subst ha
      cases hd2 : t.dropWhile nonParen with
      | nil =>
        rw [mR_inner_nil hd hd2]
        have hallt : ∀ c ∈ t, nonParen c = true := List.dropWhile_eq_nil_iff.mp hd2
        have : (t ++ ws).dropWhile nonParen = [] := by
          rw [dw_append_of_all t ws hallt]
          exact List.dropWhile_eq_nil_iff.mpr
            (fun c hc => by simp [nonParen, (hws c hc).2.2])
        rw [mR_inner_nil hdw this]
        rfl
      | cons b r =>
        have hne2 : t.dropWhile nonParen ≠ [] := by rw [hd2]; simp
        have hdw2 : (t ++ ws).dropWhile nonParen = b :: (r ++ ws) := by
          rw [(dw_append_of_ne_nil t ws hne2).2, hd2]; rfl
        by_cases hb : b = ')'
        · subst hb
          rw [mR_inner_rp hd hd2, mR_inner_rp hdw hdw2]
          rw [(dw_append_of_ne_nil s ws hne).1, (dw_append_of_ne_nil t ws hne2).1]
          by_cases hcond :
              ((s.takeWhile isHan).isEmpty || (t.takeWhile nonParen).isEmpty) = true
          · rw [if_pos hcond, if_pos hcond]; rfl
          · rw [if_neg hcond, if_neg hcond]; rfl
        · rw [mR_inner_ne hd hd2 hb, mR_inner_ne hdw hdw2 hb]; rfl
    · rw [mR_dw_ne hd ha, mR_dw_ne hdw ha]; rfl

/-- `rubySub` commutes with appending such a neutral suffix. -/
theorem rubySub_append_neutral (f : List Char → List Char → List Char) {ws : List Char}
    (hws : ∀ c ∈ ws, isHan c = false ∧ c ≠ '(' ∧ c ≠ ')') :
    ∀ s : List Char, rubySub f (s ++ ws) = rubySub f s ++ ws := by
  refine listStrongInd (fun s ih => ?_)
  cases s with
  | nil => exact rubySub_no_han f ws (fun c hc => (hws c hc).1)
  | cons c cs =>
    cases hm : matchRuby (c :: cs) with
    | some x =>
      obtain ⟨han, py, r⟩ := x
      have hm' : matchRuby (c :: (cs ++ ws)) = some (han, py, r ++ ws) := by
        have := matchRuby_append hws (c :: cs)
        rw [hm] at this
        exact this
      rw [List.cons_append, rubySub_cons_some hm', rubySub_cons_some hm]
      have hr := matchRuby_some_length hm
      simp only [List.length_cons] at hr
      rw [ih r (by simp; omega)]
      simp
    | none =>
      have hm' : matchRuby (c :: (cs ++ ws)) = none := by
        have := matchRuby_append hws (c :: cs)
        rw [hm] at this
        exact this
      rw [List.cons_append, rubySub_cons_none hm', rubySub_cons_none hm]
      rw [ih cs (by simp)]
      rfl

/-! ### Unfolding lemmas for stripRuby -/

theorem dropRt_length_le : ∀ l : List Char, (dropRt l).length ≤ l.length := by
  intro l
  induction l with
  | nil => simp [dropRt]
  | cons c cs ih =>
    rw [dropRt]
    split
    · simp only [List.length_drop, List.length_cons]
      omega
    · simpa using Nat.le_succ_of_le ih

theorem stripRubyF_fuel :
    ∀ n m (l : List Char), l.length ≤ n → l.length ≤ m → stripRubyF n l = stripRubyF m l := by
  intro n
  induction n with
  | zero =>
    intro m l hn _
    have : l = [] := List.length_eq_zero.mp (Nat.le_zero.mp hn)
    subst this
    cases m <;> rfl
  | succ n ih =>
    intro m l hn hm
    cases l with
    | nil => cases m <;> rfl
    | cons c cs =>
      cases m with
      | zero => simp at hm
      | succ m' =>
        simp only [List.length_cons] at hn hm
        simp only [stripRubyF]
        split_ifs
        · exact ih m' _ (by simp only [List.length_drop, List.length_cons]; omega)
            (by simp only [List.length_drop, List.length_cons]; omega)
        · exact ih m' _ (by simp only [List.length_drop, List.length_cons]; omega)
            (by simp only [List.length_drop, List.length_cons]; omega)
        · refine ih m' _ ?_ ?_ <;>
            calc (dropRt ((c :: cs).drop 4)).length
                ≤ ((c :: cs).drop 4).length := dropRt_length_le _
              _ ≤ _ := by simp only [List.length_drop, List.length_cons]; omega
        · rw [ih m' cs (by omega) (by omega)]

theorem stripRuby_cons_eq (c : Char) (cs : List Char) :
    stripRuby (c :: cs) =
      if (c :: cs).take 6 = "<ruby>".data then stripRuby ((c :: cs).drop 6)
      else if (c :: cs).take 7 = "</ruby>".data then stripRuby ((c :: cs).drop 7)
      else if (c :: cs).take 4 = "<rt>".data then stripRuby (dropRt ((c :: cs).drop 4))
      else c :: stripRuby cs := by
  show stripRubyF (c :: cs).length (c :: cs) = _
  simp only [List.length_cons, stripRubyF]
  unfold stripRuby
  split_ifs
  · exact stripRubyF_fuel cs.length _ _
      (by simp only [List.length_drop, List.length_cons]; omega) le_rfl
  · exact stripRubyF_fuel cs.length _ _
      (by simp only [List.length_drop, List.length_cons]; omega) le_rfl
  · refine stripRubyF_fuel cs.length _ _ ?_ le_rfl
    calc (dropRt ((c :: cs).drop 4)).length
        ≤ ((c :: cs).drop 4).length := dropRt_length_le _
      _ ≤ _ := by simp only [List.length_drop, List.length_cons]; omega
  · rfl

theorem take_head_eq {c : Char} {cs : List Char} {d : Char} {ds : List Char} {n : Nat}
    (h : (c :: cs).take (n + 1) = d :: ds) : c = d := by
  simp only [List.take_succ_cons] at h
  exact (List.cons.injEq _ _ _ _ ▸ h).1

theorem stripRuby_cons_ne_lt {c : Char} (cs : List Char) (hc : c ≠ '<') :
    stripRuby (c :: cs) = c :: stripRuby cs := by
  rw [stripRuby_cons_eq]
  rw [if_neg (fun h => hc (take_head_eq (n := 5) h)),
    if_neg (fun h => hc (take_head_eq (n := 6) h)),
    if_neg (fun h => hc (take_head_eq (n := 3) h))]

theorem stripRuby_append_no_lt :
    ∀ (pre t : List Char), (∀ c ∈ pre, c ≠ '<') →
      stripRuby (pre ++ t) = pre ++ stripRuby t := by
  intro pre
  induction pre with
  | nil => intro t _; rfl
  | cons a p ih =>
    intro t h
    rw [List.cons_append, stripRuby_cons_ne_lt _ (h a (by simp)),
      ih t (fun c hc => h c (by simp [hc]))]
    rfl

theorem stripRuby_open (t : List Char) : stripRuby ("<ruby>".data ++ t) = stripRuby t := by
  show stripRuby ('<' :: 'r' :: 'u' :: 'b' :: 'y' :: '>' :: t) = stripRuby t
  rw [stripRuby_cons_eq,
    if_pos (show ('<' :: 'r' :: 'u' :: 'b' :: 'y' :: '>' :: t).take 6 = "<ruby>".data from rfl)]
  rfl

theorem stripRuby_close (t : List Char) : stripRuby ("</ruby>".data ++ t) = stripRuby t := by
  show stripRuby ('<' :: '/' :: 'r' :: 'u' :: 'b' :: 'y' :: '>' :: t) = stripRuby t
  rw [stripRuby_cons_eq,
    if_neg (show ¬('<' :: '/' :: 'r' :: 'u' :: 'b' :: 'y' :: '>' :: t).take 6 = "<ruby>".data
      from fun h => by
        have := (List.cons.injEq _ _ _ _ ▸ (List.cons.injEq _ _ _ _ ▸ h).2).1
        exact absurd this (by decide)),
    if_pos (show ('<' :: '/' :: 'r' :: 'u' :: 'b' :: 'y' :: '>' :: t).take 7 = "</ruby>".data
      from rfl)]
  rfl

theorem stripRuby_rt (t : List Char) :
    stripRuby ("<rt>".data ++ t) = stripRuby (dropRt t) := by
  show stripRuby ('<' :: 'r' :: 't' :: '>' :: t) = stripRuby (dropRt t)
  rw [stripRuby_cons_eq,
    if_neg (show ¬('<' :: 'r' :: 't' :: '>' :: t).take 6 = "<ruby>".data
      from fun h => by
        have := (List.cons.injEq _ _ _ _ ▸ (List.cons.injEq _ _ _ _ ▸
          (List.cons.injEq _ _ _ _ ▸ h).2).2).1
        exact absurd this (by decide)),
    if_neg (show ¬('<' :: 'r' :: 't' :: '>' :: t).take 7 = "</ruby>".data
      from fun h => by
        have := (List.cons.injEq _ _ _ _ ▸ (List.cons.injEq _ _ _ _ ▸ h).2).1
        exact absurd this (by decide)),
    if_pos (show ('<' :: 'r' :: 't' :: '>' :: t).take 4 = "<rt>".data from rfl)]
  rfl

theorem dropRt_skip :
    ∀ (p t : List Char), (∀ c ∈ p, c ≠ '<') →
      dropRt (p ++ "</rt>".data ++ t) = t := by
  intro p
  induction p with
  | nil =>
    intro t _
    show dropRt ('<' :: '/' :: 'r' :: 't' :: '>' :: t) = t
    rw [dropRt,
      if_pos (show ('<' :: '/' :: 'r' :: 't' :: '>' :: t).take 5 = "</rt>".data from rfl)]
    rfl
  | cons a q ih =>
    intro t h
    show dropRt (a :: (q ++ "</rt>".data ++ t)) = t
    rw [dropRt,
      if_neg (show ¬(a :: (q ++ "</rt>".data ++ t)).take 5 = "</rt>".data
        from fun hx => h a (by simp) (take_head_eq (n := 4) hx))]
    exact ih t (fun c hc => h c (by simp [hc]))

/-! ### pyStrip decomposition -/

theorem pyStrip_decomp (l : List Char) :
    l = l.takeWhile isPySpace ++
      (pyStrip l ++ ((l.dropWhile isPySpace).reverse.takeWhile isPySpace).reverse) := by
  conv_lhs => rw [← List.takeWhile_append_dropWhile isPySpace l]
  congr 1
  conv_lhs => rw [← List.reverse_reverse (l.dropWhile isPySpace),
    ← List.takeWhile_append_dropWhile isPySpace (l.dropWhile isPySpace).reverse]
  rw [List.reverse_append]
  rfl

theorem pyStrip_eq_nil_iff (l : List Char) :
    pyStrip l = [] ↔ ∀ c ∈ l, isPySpace c = true := by
  unfold pyStrip
  rw [List.reverse_eq_nil_iff, List.dropWhile_eq_nil_iff]
  constructor
  · intro h c hc
    conv at hc => rw [← List.takeWhile_append_dropWhile isPySpace l]
    rcases List.mem_append.mp hc with h1 | h2
    · exact List.mem_takeWhile_imp h1
    · exact h c (List.mem_reverse.mpr h2)
  · intro h c hc
    exact h c ((List.dropWhile_sublist _).subset (List.mem_reverse.mp hc))

theorem pyStrip_ne_nil_iff (l : List Char) :
    (!(pyStrip l).isEmpty) = l.any fun c => !isPySpace c := by
  by_cases h : pyStrip l = []
  · rw [h]
    have hall := (pyStrip_eq_nil_iff l).mp h
    have hr : (l.any fun c => !isPySpace c) = false := by
      rw [List.any_eq_false]
      intro c hc
      simp [hall c hc]
    rw [hr]
    rfl
  · have h2 : ∃ c ∈ l, isPySpace c = false := by
      by_contra hh
      push_neg at hh
      refine h ((pyStrip_eq_nil_iff l).mpr fun c hc => ?_)
      cases hx : isPySpace c with
      | true => rfl
      | false => exact absurd hx (hh c hc)
    obtain ⟨c, hc, hcf⟩ := h2
    rw [List.isEmpty_eq_false.mpr h]
    have hr : (l.any fun c => !isPySpace c) = true :=
      List.any_eq_true.mpr ⟨c, hc, by rw [hcf]; rfl⟩
    rw [hr]
    rfl

/-! ### removeWs facts -/

theorem removeWs_append (a b : List Char) : removeWs (a ++ b) = removeWs a ++ removeWs b :=
  List.filter_append _ _

theorem removeWs_of_all_space {ws : List Char} (h : ∀ c ∈ ws, isPySpace c = true) :
    removeWs ws = [] :=
  List.filter_eq_nil_iff.mpr fun c hc => by simp [h c hc]

theorem removeWs_of_no_space {l : List Char} (h : ∀ c ∈ l, isPySpace c = false) :
    removeWs l = l :=
  List.filter_eq_self.mpr fun c hc => by simp [h c hc]

/-- Stripping the line before substituting and removing all whitespace gives
the same result as substituting on the raw line: the stripped-off whitespace
is outside every match and is removed at the end anyway. -/
theorem removeWs_rubySub_pyStrip (f : List Char → List Char → List Char) (l : List Char) :
    removeWs (rubySub f (pyStrip l)) = removeWs (rubySub f l) := by
  have hws1 : ∀ c ∈ l.takeWhile isPySpace, isPySpace c = true :=
    fun c hc => List.mem_takeWhile_imp hc
  have hws2 : ∀ c ∈ ((l.dropWhile isPySpace).reverse.takeWhile isPySpace).reverse,
      isPySpace c = true :=
    fun c hc => List.mem_takeWhile_imp (List.mem_reverse.mp hc)
  have hneutral : ∀ c ∈ ((l.dropWhile isPySpace).reverse.takeWhile isPySpace).reverse,
      isHan c = false ∧ c ≠ '(' ∧ c ≠ ')' :=
    fun c hc => ⟨isPySpace_not_han (hws2 c hc), isPySpace_ne_lparen (hws2 c hc),
      isPySpace_ne_rparen (hws2 c hc)⟩
  conv_rhs => rw [pyStrip_decomp l]
  rw [rubySub_prefix_no_han f _ _ (fun c hc => isPySpace_not_han (hws1 c hc))]
  rw [rubySub_append_neutral f hneutral (pyStrip l)]
  rw [removeWs_append, removeWs_append]
  rw [removeWs_of_all_space hws1, removeWs_of_all_space hws2]
  simp

/-! ### Sorting lemmas -/

theorem lexLe_total : ∀ xs ys : List Char, lexLe xs ys = true ∨ lexLe ys xs = true := by
  intro xs
  induction xs with
  | nil => intro ys; left; rfl
  | cons a as ih =>
    intro ys
    cases ys with
    | nil => right; rfl
    | cons b bs =>
      by_cases h1 : a.toNat < b.toNat
      · left; simp [lexLe, h1]
      · by_cases h2 : b.toNat < a.toNat
        · right; simp [lexLe, h2]
        · rcases ih bs with h | h
          · left; simp [lexLe, h1, h2, h]
          · right; simp [lexLe, h1, h2, h]

theorem lexLe_trans :
    ∀ xs ys zs : List Char, lexLe xs ys = true → lexLe ys zs = true → lexLe xs zs = true := by
  intro xs
  induction xs with
  | nil => intro ys zs _ _; rfl
  | cons a as ih =>
    intro ys zs h1 h2
    cases ys with
    | nil => simp [lexLe] at h1
    | cons b bs =>
      cases zs with
      | nil => simp [lexLe] at h2
      | cons c cs =>
        simp only [lexLe] at h1 h2 ⊢
        split_ifs at h1 h2 ⊢ <;>
          first
            | rfl
            | exact ih bs cs h1 h2
            | (exfalso; omega)

theorem mem_insertSorted {α : Type} {le : α → α → Bool} {x a : α} :
    ∀ l : List α, a ∈ insertSorted le x l → a = x ∨ a ∈ l := by
  intro l
  induction l with
  | nil => intro h; simp [insertSorted] at h; exact Or.inl h
  | cons y ys ih =>
    intro h
    rw [insertSorted] at h
    split_ifs at h
    · rcases List.mem_cons.mp h with h | h
      · exact Or.inl h
      · exact Or.inr h
    · rcases List.mem_cons.mp h with h | h
      · exact Or.inr (by simp [h])
      · rcases ih h with h | h
        · exact Or.inl h
        · exact Or.inr (by simp [h])

theorem pairwise_insertSorted {α : Type} {le : α → α → Bool}
    (total : ∀ a b, le a b = true ∨ le b a = true)
    (trans : ∀ a b c, le a b = true → le b c = true → le a c = true) (x : α) :
    ∀ l : List α, List.Pairwise (fun u v => le u v = true) l →
      List.Pairwise (fun u v => le u v = true) (insertSorted le x l) := by
  intro l
  induction l with
  | nil => intro _; simp [insertSorted]
  | cons y ys ih =>
    intro hl
    rcases List.pairwise_cons.mp hl with ⟨hy, hys⟩
    rw [insertSorted]
    split_ifs with hxy
    · refine List.pairwise_cons.mpr ⟨?_, hl⟩
      intro b hb
      rcases List.mem_cons.mp hb with hb | hb
      · exact hb ▸ hxy
      · exact trans x y b hxy (hy b hb)
    · have hyx : le y x = true := by
        rcases total x y with h | h
        · exact absurd h hxy
        · exact h
      refine List.pairwise_cons.mpr ⟨?_, ih hys⟩
      intro b hb
      rcases mem_insertSorted _ hb with hb | hb
      · exact hb ▸ hyx
      · exact hy b hb

theorem pairwise_isort {α : Type} {le : α → α → Bool}
    (total : ∀ a b, le a b = true ∨ le b a = true)
    (trans : ∀ a b c, le a b = true → le b c = true → le a c = true) :
    ∀ l : List α, List.Pairwise (fun u v => le u v = true) (isort le l) := by
  intro l
  induction l with
  | nil => simp [isort]
  | cons x xs ih => exact pairwise_insertSorted total trans x _ ih

theorem fileLeB_total : ∀ a b : List Char × List Char,
    fileLeB a b = true ∨ fileLeB b a = true :=
  fun a b => lexLe_total a.1 b.1

theorem fileLeB_trans : ∀ a b c : List Char × List Char,
    fileLeB a b = true → fileLeB b c = true → fileLeB a c = true :=
  fun a b c h1 h2 => lexLe_trans a.1 b.1 c.1 h1 h2

/-! ### Full matches and non-matches of the pattern -/

theorem matchRuby_full {han pron rest : List Char} (hh : han ≠ [])
    (hhall : ∀ c ∈ han, isHan c = true) (hp : pron ≠ []) (hpall : ∀ c ∈ pron, c ≠ ')') :
    matchRuby (han ++ '(' :: (pron ++ ')' :: rest)) = some (han, pron, rest) := by
  have h1 := tw_append_all (p := isHan) han '(' (pron ++ ')' :: rest) hhall (by decide)
  have h2 := tw_append_all (p := nonParen) pron ')' rest
    (fun c hc => by simp [nonParen, hpall c hc]) (by decide)
  rw [mR_inner_rp h1.2 h2.2, h1.1, h2.1]
  rw [if_neg]
  simp only [Bool.or_eq_true, not_or]
  exact ⟨by simp [List.isEmpty_eq_false.mpr hh], by simp [List.isEmpty_eq_false.mpr hp]⟩

theorem rubySub_head_match (f : List Char → List Char → List Char)
    {han pron rest : List Char} (hh : han ≠ []) (hhall : ∀ c ∈ han, isHan c = true)
    (hp : pron ≠ []) (hpall : ∀ c ∈ pron, c ≠ ')') :
    rubySub f (han ++ '(' :: (pron ++ ')' :: rest)) = f han pron ++ rubySub f rest := by
  cases han with
  | nil => exact absurd rfl hh
  | cons a h =>
    have hm : matchRuby (a :: (h ++ '(' :: (pron ++ ')' :: rest))) =
        some (a :: h, pron, rest) := by
      rw [← List.cons_append]
      exact matchRuby_full hh hhall hp hpall
    rw [List.cons_append, rubySub_cons_some hm]

theorem rubySub_empty_paren (f : List Char → List Char → List Char) :
    ∀ han rest : List Char, (∀ c ∈ han, isHan c = true) →
      rubySub f (han ++ '(' :: ')' :: rest) = han ++ '(' :: ')' :: rubySub f rest := by
  intro han
  induction han with
  | nil =>
    intro rest _
    rw [List.nil_append,
      rubySub_cons_none (matchRuby_none_of_not_han (by decide)),
      rubySub_cons_none (matchRuby_none_of_not_han (by decide))]
    rfl
  | cons a h ih =>
    intro rest hall
    have h1 := tw_append_all (p := isHan) (a :: h) '(' (')' :: rest) hall (by decide)
    have h2 : ((')' : Char) :: rest).dropWhile nonParen = ')' :: rest := by
      simp [List.dropWhile_cons, nonParen]
    have hm := mR_inner_rp h1.2 h2
    have ht : ((')' : Char) :: rest).takeWhile nonParen = [] := by
      simp [List.takeWhile_cons, nonParen]
    rw [ht] at hm
    have hm' : matchRuby (a :: (h ++ '(' :: ')' :: rest)) = none := by
      rw [← List.cons_append, hm]
      simp
    rw [List.cons_append, rubySub_cons_none hm',
      ih rest (fun c hc => hall c (by simp [hc]))]
    rfl

theorem rubySub_no_lparen (f : List Char → List Char → List Char) :
    ∀ s : List Char, (∀ c ∈ s, c ≠ '(') → rubySub f s = s := by
  refine listStrongInd (fun s ih hs => ?_)
  cases s with
  | nil => rfl
  | cons c cs =>
    cases hm : matchRuby (c :: cs) with
    | some x =>
      obtain ⟨han, py, r⟩ := x
      obtain ⟨he, -, -, -, -⟩ := matchRuby_some_decomp hm
      exact absurd rfl (hs '(' (by rw [he]; simp))
    | none =>
      rw [rubySub_cons_none hm,
        ih cs (by simp) (fun c hc => hs c (by simp [hc]))]

theorem rubySub_no_rparen (f : List Char → List Char → List Char) :
    ∀ s : List Char, (∀ c ∈ s, c ≠ ')') → rubySub f s = s := by
  refine listStrongInd (fun s ih hs => ?_)
  cases s with
  | nil => rfl
  | cons c cs =>
    cases hm : matchRuby (c :: cs) with
    | some x =>
      obtain ⟨han, py, r⟩ := x
      obtain ⟨he, -, -, -, -⟩ := matchRuby_some_decomp hm
      exact absurd rfl (hs ')' (by rw [he]; simp))
    | none =>
      rw [rubySub_cons_none hm,
        ih cs (by simp) (fun c hc => hs c (by simp [hc]))]

theorem rubySub_ne_nil {b : List Char} (hb : b ≠ []) : rubySub rubyRepl b ≠ [] := by
  cases b with
  | nil => exact absurd rfl hb
  | cons c cs =>
    cases hm : matchRuby (c :: cs) with
    | some x =>
      obtain ⟨han, py, r⟩ := x
      rw [rubySub_cons_some hm]
      simp [rubyRepl]
    | none =>
      rw [rubySub_cons_none hm]
      simp

/-! ### The round-trip between rendering and markup stripping -/

theorem stripRuby_rubySub :
    ∀ b : List Char, (∀ c ∈ b, c ≠ '<') →
      stripRuby (rubySub rubyRepl b) = rubySub keepBase b := by
  refine listStrongInd (fun b ih hb => ?_)
  cases b with
  | nil => rfl
  | cons c cs =>
    cases hm : matchRuby (c :: cs) with
    | none =>
      rw [rubySub_cons_none hm, rubySub_cons_none hm,
        stripRuby_cons_ne_lt _ (hb c (by simp)),
        ih cs (by simp) (fun x hx => hb x (by simp [hx]))]
    | some x =>
      obtain ⟨han, py, r⟩ := x
      obtain ⟨he, -, -, hhall, -⟩ := matchRuby_some_decomp hm
      have hhan_lt : ∀ x ∈ han, x ≠ '<' := fun x hx => isHan_ne_lt (hhall x hx)
      have hpy_lt : ∀ x ∈ py, x ≠ '<' := fun x hx => hb x (by rw [he]; simp [hx])
      have hr_lt : ∀ x ∈ r, x ≠ '<' := fun x hx => hb x (by rw [he]; simp [hx])
      have hrlen : r.length < (c :: cs).length := by
        have := matchRuby_some_length hm
        omega
      rw [rubySub_cons_some hm, rubySub_cons_some hm]
      show stripRuby (rubyRepl han py ++ rubySub rubyRepl r) = keepBase han py ++ rubySub keepBase r
      have hshape : rubyRepl han py ++ rubySub rubyRepl r =
          "<ruby>".data ++ (han ++ ("<rt>".data ++ ((py ++ "</rt>".data) ++
            ("</ruby>".data ++ rubySub rubyRepl r)))) := by
        unfold rubyRepl
        simp [List.append_assoc]
      rw [hshape, stripRuby_open, stripRuby_append_no_lt _ _ hhan_lt, stripRuby_rt]
      have hdrop : dropRt ((py ++ "</rt>".data) ++ ("</ruby>".data ++ rubySub rubyRepl r)) =
          "</ruby>".data ++ rubySub rubyRepl r := dropRt_skip py _ hpy_lt
      rw [hdrop, stripRuby_close, ih r hrlen hr_lt]
      rfl

/-! ### extract_title equivalences -/

theorem extract_title_eq_spec (text fb : List Char) :
    extract_title text fb = extract_title_spec text fb := by
  unfold extract_title extract_title_spec
  have hfm : ((splitlines text).map pyStrip).filter (fun l => !l.isEmpty)
      = ((splitlines text).filter (fun l => l.any fun c => !isPySpace c)).map pyStrip := by
    rw [List.filter_map]
    congr 1
    refine List.filter_congr (fun a _ => ?_)
    exact pyStrip_ne_nil_iff a
  rw [hfm]
  cases hc : (splitlines text).filter (fun l => l.any fun c => !isPySpace c) with
  | nil => rfl
  | cons raw rest =>
    show (let t := removeWs (rubySub keepBase (pyStrip raw)); if t.isEmpty then fb else t) =
      (let t := removeWs (rubySub keepBase raw); if t.isEmpty then fb else t)
    rw [removeWs_rubySub_pyStrip]

theorem extract_title_all_space {text fb : List Char}
    (h : ∀ l ∈ splitlines text, ∀ c ∈ l, isPySpace c = true) :
    extract_title text fb = fb := by
  unfold extract_title
  have he : ((splitlines text).map pyStrip).filter (fun l => !l.isEmpty) = [] := by
    rw [List.filter_eq_nil_iff]
    intro a ha
    rcases List.mem_map.mp ha with ⟨l, hl, rfl⟩
    simp [(pyStrip_eq_nil_iff l).mpr (h l hl)]
  rw [he]


/-! ### The claims -/

/-- C1: every occurrence of `base(pron)` — a non-empty run of Han
characters followed by a parenthesised non-empty run of non-`)`
characters — is rewritten, leftmost-first and non-overlapping, into
`<ruby>base<rt>pron</rt></ruby>`; in particular the line
`小(xiǎo)红(hóng)帽(mào)` renders as one `<p>` block containing exactly
three ruby constructs in sequence, each pairing one base character with its
pronunciation. -/
theorem C1_ruby_rewrite :
    (∀ han pron rest : List Char, han ≠ [] → (∀ c ∈ han, isHan c = true) →
      pron ≠ [] → (∀ c ∈ pron, c ≠ ')') →
      rubySub rubyRepl (han ++ '(' :: (pron ++ ')' :: rest)) =
        "<ruby>".data ++ han ++ "<rt>".data ++ pron ++ "</rt></ruby>".data ++
          rubySub rubyRepl rest) ∧
    to_ruby_html "小(xiǎo)红(hóng)帽(mào)".data =
      "<p><ruby>小<rt>xiǎo</rt></ruby><ruby>红<rt>hóng</rt></ruby><ruby>帽<rt>mào</rt></ruby></p>".data := by
  constructor
  · intro han pron rest hh hhall hp hpall
    rw [rubySub_head_match rubyRepl hh hhall hp hpall]
    unfold rubyRepl
    simp [List.append_assoc]
  · rfl

/-- C1 witness: the general rewrite rule applied to the concrete occurrence
`小(xiǎo)`. -/
theorem C1_ruby_rewrite_witness :
    rubySub rubyRepl (['小'] ++ '(' :: ("xiǎo".data ++ ')' :: [])) =
      "<ruby>".data ++ ['小'] ++ "<rt>".data ++ "xiǎo".data ++ "</rt></ruby>".data ++
        rubySub rubyRepl [] :=
  C1_ruby_rewrite.1 ['小'] "xiǎo".data [] (by decide) (by decide) (by decide) (by decide)

/-- C2 counterexample: for the source block `小(xiǎo) 红(hóng)`, stripping
the generated markup from the rendered block yields `小 红`, while the
claimed projection (pronunciations removed and all spaces removed) is
`小红`; the renderer preserves interior spaces, so the claimed round-trip
equality fails. -/
theorem C2_roundtrip_counterexample :
    stripRuby (rubySub rubyRepl "小(xiǎo) 红(hóng)".data) ≠
      removeWs (rubySub keepBase "小(xiǎo) 红(hóng)".data) := by decide

/-- C2 (amended): for every source block containing no `<` character,
stripping the generated annotation markup from the rendered block yields
exactly the block with every pronunciation-in-parentheses removed — spaces
are preserved, not removed. -/
theorem C2_roundtrip_amended (b : List Char) (hb : ∀ c ∈ b, c ≠ '<') :
    stripRuby (rubySub rubyRepl b) = rubySub keepBase b :=
  stripRuby_rubySub b hb

/-- C2 witness: the amended round-trip at the block `小(xiǎo) 红(hóng)`. -/
theorem C2_roundtrip_witness :
    (∀ c ∈ "小(xiǎo) 红(hóng)".data, c ≠ '<') ∧
      stripRuby (rubySub rubyRepl "小(xiǎo) 红(hóng)".data) =
        rubySub keepBase "小(xiǎo) 红(hóng)".data :=
  ⟨by decide, C2_roundtrip_amended _ (by decide)⟩

/-- C3 counterexample: the input `Hello world` renders as
`<p>Hello world</p>` — the interior space is kept, not removed as the claim
states. -/
theorem C3_spaces_counterexample :
    to_ruby_html "Hello world".data = "<p>Hello world</p>".data ∧
      to_ruby_html "Hello world".data ≠ "<p>Helloworld</p>".data :=
  ⟨rfl, by decide⟩

/-- C3 (amended): the body renderer does not remove interior space
characters; blocks are only trimmed at their ends.  Annotation-free text
(no `(`) passes through substitution unchanged, and `Hello world` renders
as `<p>Hello world</p>` with its space preserved. -/
theorem C3_spaces_amended :
    (∀ s : List Char, (∀ c ∈ s, c ≠ '(') → rubySub rubyRepl s = s) ∧
      to_ruby_html "Hello world".data = "<p>Hello world</p>".data :=
  ⟨rubySub_no_lparen rubyRepl, rfl⟩

/-- C3 witness: the amended pass-through at `Hello world`. -/
theorem C3_spaces_witness :
    (∀ c ∈ "Hello world".data, c ≠ '(') ∧
      rubySub rubyRepl "Hello world".data = "Hello world".data :=
  ⟨by decide, C3_spaces_amended.1 _ (by decide)⟩

/-- C4: title extraction follows the specified contract — the first line
with non-whitespace content, every `base(pron)` replaced by `base`, all
whitespace removed, falling back when that is empty or no such line
exists — and when the first non-empty line has no annotation match and no
whitespace at all, the title is that line verbatim. -/
theorem C4_title_contract :
    (∀ text fb : List Char, extract_title text fb = extract_title_spec text fb) ∧
    (∀ (text fb first : List Char) (rest : List (List Char)),
      ((splitlines text).map pyStrip).filter (fun l => !l.isEmpty) = first :: rest →
      (∀ c ∈ first, isPySpace c = false) → rubySub keepBase first = first →
      extract_title text fb = first) := by
  refine ⟨extract_title_eq_spec, ?_⟩
  intro text fb first rest hsplit hnospace hnomatch
  have hfne : first ≠ [] := by
    have hmem : first ∈ ((splitlines text).map pyStrip).filter (fun l => !l.isEmpty) := by
      rw [hsplit]; exact List.mem_cons_self first rest
    have := (List.mem_filter.mp hmem).2
    exact List.isEmpty_eq_false.mp (by simpa using this)
  have h1 : removeWs (rubySub keepBase first) = first := by
    rw [hnomatch]; exact removeWs_of_no_space hnospace
  calc extract_title text fb
      = if (removeWs (rubySub keepBase first)).isEmpty then fb
        else removeWs (rubySub keepBase first) := by
        unfold extract_title; rw [hsplit]
    _ = first := by
        rw [h1, if_neg (by simp [List.isEmpty_eq_false.mpr hfne])]

/-- C4 witness: the contract and the verbatim consequence at the document
`abc\ndef` with fallback `F`. -/
theorem C4_title_contract_witness :
    extract_title "abc\ndef".data "F".data = extract_title_spec "abc\ndef".data "F".data ∧
    extract_title "abc\ndef".data "F".data = "abc".data :=
  ⟨C4_title_contract.1 _ _,
    C4_title_contract.2 "abc\ndef".data "F".data "abc".data ["def".data]
      (by decide) (by decide) (by decide)⟩

/-- C5 counterexample: for the document `(xiǎo)` — a single line of
annotation syntax with empty base text — the title is the literal line
`(xiǎo)`, not the fallback: `RUBY_RE` requires a non-empty Han base, so the
line is left unchanged and is non-empty. -/
theorem C5_title_fallback_counterexample :
    extract_title "(xiǎo)".data "fb".data = "(xiǎo)".data ∧
      extract_title "(xiǎo)".data "fb".data ≠ "fb".data :=
  ⟨rfl, by decide⟩

/-- C5 (amended): a document with zero non-whitespace lines resolves to the
fallback, but a first line consisting only of annotation syntax with empty
base text is returned literally rather than falling back, because the
pattern requires at least one Han character before the parenthesis. -/
theorem C5_title_fallback_amended :
    (∀ text fb : List Char, (∀ l ∈ splitlines text, ∀ c ∈ l, isPySpace c = true) →
      extract_title text fb = fb) ∧
    (∀ fb : List Char, extract_title "(xiǎo)".data fb = "(xiǎo)".data) :=
  ⟨fun _ _ h => extract_title_all_space h, fun _ => rfl⟩

/-- C5 witness: the fallback case at the whitespace-only document
consisting of a space, a newline and a space. -/
theorem C5_title_fallback_witness :
    (∀ l ∈ splitlines " \n ".data, ∀ c ∈ l, isPySpace c = true) ∧
      extract_title " \n ".data "F".data = "F".data :=
  ⟨by decide, C5_title_fallback_amended.1 _ _ (by decide)⟩

/-- C6: every rendered paragraph is `<p>` ++ body ++ `</p>` with a
non-empty body — blocks that are empty after trimming are dropped and never
produce an empty wrapper — the body output joins the paragraphs with a
blank-line separator, and the empty input yields zero paragraphs. -/
theorem C6_no_empty_blocks :
    (∀ text p : List Char, p ∈ paragraphsOf text →
      ∃ body : List Char, body ≠ [] ∧ p = "<p>".data ++ body ++ "</p>".data) ∧
    (∀ text : List Char,
      to_ruby_html text = List.intercalate "\n\n".data (paragraphsOf text)) ∧
    paragraphsOf [] = [] := by
  refine ⟨?_, fun _ => rfl, rfl⟩
  intro text p hp
  unfold paragraphsOf at hp
  rcases List.mem_map.mp hp with ⟨b, hb, rfl⟩
  have hbne : b ≠ [] := by
    have h2 := (List.mem_filter.mp hb).2
    exact List.isEmpty_eq_false.mp (by simpa using h2)
  exact ⟨rubySub rubyRepl b, rubySub_ne_nil hbne, rfl⟩

/-- C6 witness: the paragraph shape at the input `hi`. -/
theorem C6_no_empty_blocks_witness :
    ("<p>hi</p>".data ∈ paragraphsOf "hi".data) ∧
      ∃ body : List Char, body ≠ [] ∧
        "<p>hi</p>".data = "<p>".data ++ body ++ "</p>".data :=
  ⟨by decide, C6_no_empty_blocks.1 "hi".data _ (by decide)⟩

/-- C7: malformed annotation syntax is not an error and passes through as
literal text: any input without `(` and any input without `)` is left
unchanged by the substitution, and the unmatched `小(xiǎo` and stray
`小)mào` render as their literal characters. -/
theorem C7_malformed_passthrough :
    (∀ (f : List Char → List Char → List Char) (s : List Char),
      (∀ c ∈ s, c ≠ '(') → rubySub f s = s) ∧
    (∀ (f : List Char → List Char → List Char) (s : List Char),
      (∀ c ∈ s, c ≠ ')') → rubySub f s = s) ∧
    to_ruby_html "小(xiǎo".data = "<p>小(xiǎo</p>".data ∧
    to_ruby_html "小)mào".data = "<p>小)mào</p>".data :=
  ⟨rubySub_no_lparen, rubySub_no_rparen, rfl, rfl⟩

/-- C7 witness: the pass-through rule applied to the unmatched `小(xiǎo`. -/
theorem C7_malformed_passthrough_witness :
    (∀ c ∈ "小(xiǎo".data, c ≠ ')') ∧
      rubySub rubyRepl "小(xiǎo".data = "小(xiǎo".data :=
  ⟨by decide, C7_malformed_passthrough.2.1 rubyRepl _ (by decide)⟩

/-- C8: the stylesheet is written with the fixed default content only when
absent; an existing stylesheet is returned byte-for-byte unchanged. -/
theorem C8_css_preserved :
    ensure_css none = some DEFAULT_CSS ∧
      ∀ c : List Char, ensure_css (some c) = some c :=
  ⟨rfl, fun _ => rfl⟩

/-- C9: the index has exactly one item per page record, the i-th item is
the link for the i-th record, the page records are the sorted source files
mapped to pages, and the sorted file list is pairwise in lexicographic
order of the source names. -/
theorem C9_index_order :
    (∀ files : List (List Char × List Char),
      (indexItems (mainPages files)).length = (mainPages files).length) ∧
    (∀ (files : List (List Char × List Char)) (i : Nat)
      (h1 : i < (indexItems (mainPages files)).length)
      (h2 : i < (mainPages files).length),
      (indexItems (mainPages files)).get ⟨i, h1⟩ =
        itemHtml ((mainPages files).get ⟨i, h2⟩)) ∧
    (∀ files : List (List Char × List Char),
      List.Pairwise (fun a b => fileLeB a b = true) (sortFiles files)) ∧
    (∀ files : List (List Char × List Char),
      mainPages files = (sortFiles files).map pageOf) := by
  refine ⟨fun files => List.length_map _ _, ?_, ?_, fun _ => rfl⟩
  · intro files i h1 h2
    simp only [List.get_eq_getElem, indexItems, List.getElem_map]
  · intro files
    exact pairwise_isort fileLeB_total fileLeB_trans files

/-- C9 witness: with source files `b.txt` and `a.txt`, the first index item
is the link of the first page record (which is `a.html`, since the files
are sorted by name). -/
theorem C9_index_order_witness :
    (indexItems (mainPages [("b.txt".data, "x".data), ("a.txt".data, "y".data)])).get
        ⟨0, by decide⟩ =
      itemHtml ((mainPages [("b.txt".data, "x".data), ("a.txt".data, "y".data)]).get
        ⟨0, by decide⟩) :=
  C9_index_order.2.1 [("b.txt".data, "x".data), ("a.txt".data, "y".data)] 0
    (by decide) (by decide)

/-- C10: an empty pair of parentheses after a Han run never matches — the
pronunciation part requires at least one non-`)` character — so `base()`
passes through as literal text; in particular `小()` renders as
`<p>小()</p>`. -/
theorem C10_empty_paren :
    (∀ (f : List Char → List Char → List Char) (han rest : List Char),
      (∀ c ∈ han, isHan c = true) →
      rubySub f (han ++ '(' :: ')' :: rest) = han ++ '(' :: ')' :: rubySub f rest) ∧
    to_ruby_html "小()".data = "<p>小()</p>".data :=
  ⟨rubySub_empty_paren, rfl⟩

/-- C10 witness: the literal pass-through of `小()`. -/
theorem C10_empty_paren_witness :
    (∀ c ∈ ['小'], isHan c = true) ∧
      rubySub rubyRepl (['小'] ++ '(' :: ')' :: []) =
        ['小'] ++ '(' :: ')' :: rubySub rubyRepl [] :=
  ⟨by decide, C10_empty_paren.1 rubyRepl ['小'] [] (by decide)⟩
